import Mathlib

/-!
Verification of the single-pair parenthesization search program.

The program tokenizes a fixed arithmetic expression over `+` and `*`,
evaluates flat token sequences with multiplication binding tighter than
addition, enumerates every contiguous index range that could be wrapped in
one pair of parentheses, and reports the renderings whose value equals a
target. The definitions below are a shallow embedding of the source
(`src/main.rs`); machine integers (`i64`) are modelled as `Int` with
explicit two-complement wrapping where the source performs arithmetic.
-/

/-- Tokens produced by the tokenizer: a number literal, `+`, or `*`. -/
inductive Token where
  | Number : Int → Token
  | Plus : Token
  | Mul : Token
deriving DecidableEq, Repr

/-- Two-complement wrap of an integer into the signed 64-bit range, the
semantics of overflow-permitting `i64` arithmetic. -/
def i64Wrap (x : Int) : Int := (x + 2 ^ 63) % 2 ^ 64 - 2 ^ 63

/-- Wrapping `i64` multiplication. -/
def wmul (a b : Int) : Int := i64Wrap (a * b)

/-- Wrapping `i64` addition. -/
def wadd (a b : Int) : Int := i64Wrap (a + b)

/-- Test that an integer lies in the signed 64-bit range. -/
def fitsI64 (x : Int) : Bool := decide (-(2 ^ 63) ≤ x) && decide (x < 2 ^ 63)

/-- The expectation state of the evaluator walk in `evaluate_expression`. -/
inductive Expectation where
  | number : Expectation
  | operator : Expectation
deriving DecidableEq, Repr

/-- The token walk of `evaluate_expression`: the `while` loop plus the final
`match` on the expectation, threading the list of completed terms and the
product in progress. Returns the final list of terms, or `none` on any
malformation. -/
def evalLoop : List Token → Expectation → Option Int → List Int → Option (List Int)
  | [], expectation, current_product, terms =>
    match expectation with
    | Expectation.number => none
    | Expectation.operator =>
      match current_product with
      | some prod => some (terms ++ [prod])
      | none => none
  | Token.Number n :: rest, Expectation.number, current_product, terms =>
    if current_product.isSome then none
    else evalLoop rest Expectation.operator (some n) terms
  | Token.Plus :: rest, Expectation.operator, current_product, terms =>
    match current_product with
    | some prod => evalLoop rest Expectation.number none (terms ++ [prod])
    | none => none
  | Token.Mul :: rest, Expectation.operator, current_product, terms =>
    match current_product with
    | none => none
    | some prod =>
      match rest with
      | Token.Number m :: rest2 =>
        evalLoop rest2 Expectation.operator (some (wmul prod m)) terms
      | _ => none
  | Token.Plus :: _, Expectation.number, _, _ => none
  | Token.Mul :: _, Expectation.number, _, _ => none
  | Token.Number _ :: _, Expectation.operator, _, _ => none

/-- Evaluate a flat token sequence with `*` binding tighter than `+`
(`evaluate_expression` in the source): run the walk from the initial state,
then sum the completed terms with wrapping `i64` addition. -/
def evaluate_expression (tokens : List Token) : Option Int :=
  if tokens.isEmpty then none
  else
    match evalLoop tokens Expectation.number none [] with
    | some terms => some (terms.foldl wadd 0)
    | none => none

/-- Accumulate the decimal value of a digit string; fails on any non-digit. -/
def digitsToNat : List Char → Nat → Option Nat
  | [], acc => some acc
  | c :: rest, acc =>
    if c.isDigit then digitsToNat rest (acc * 10 + (c.toNat - 48)) else none

/-- Parse a string as a signed 64-bit integer the way `i64::from_str` does:
an optional leading `+` or `-` sign followed by one or more decimal digits,
with the resulting value required to fit in the signed 64-bit range. -/
def i64_from_str (s : String) : Option Int :=
  match s.toList with
  | [] => none
  | '+' :: rest =>
    match rest with
    | [] => none
    | _ =>
      (digitsToNat rest 0).bind fun n =>
        if decide ((n : Int) ≤ 2 ^ 63 - 1) then some ((n : Int)) else none
  | '-' :: rest =>
    match rest with
    | [] => none
    | _ =>
      (digitsToNat rest 0).bind fun n =>
        if decide ((n : Int) ≤ 2 ^ 63) then some (-(n : Int)) else none
  | cs =>
    (digitsToNat cs 0).bind fun n =>
      if decide ((n : Int) ≤ 2 ^ 63 - 1) then some ((n : Int)) else none

/-- Append the piece in progress, when nonempty, to the list of pieces. -/
def flushPiece (cur : List Char) (acc : List String) : List String :=
  if cur.isEmpty then acc else acc ++ [String.mk cur]

/-- Character walk splitting an input into maximal whitespace-free pieces. -/
def splitWsGo : List Char → List Char → List String → List String
  | [], cur, acc => flushPiece cur acc
  | c :: rest, cur, acc =>
    if c.isWhitespace then splitWsGo rest [] (flushPiece cur acc)
    else splitWsGo rest (cur ++ [c]) acc

/-- Split a string on whitespace, dropping empty pieces, as Rust
`split_whitespace` does. -/
def splitWhitespace (s : String) : List String :=
  splitWsGo s.toList [] []

/-- The string literal for the plus operator. -/
def plusStr : String := "+"

/-- The string literal for the multiplication operator. -/
def mulStr : String := "*"

/-- The accumulator loop of `tokenize`: each piece that parses as an `i64`
becomes a `Number`, the literal pieces `+` and `*` become operators, and any
other piece is dropped. -/
def tokenizeGo (acc : List Token) : List String → List Token
  | [] => acc
  | part :: rest =>
    match i64_from_str part with
    | some num => tokenizeGo (acc ++ [Token.Number num]) rest
    | none =>
      if part = plusStr then tokenizeGo (acc ++ [Token.Plus]) rest
      else if part = mulStr then tokenizeGo (acc ++ [Token.Mul]) rest
      else tokenizeGo acc rest

/-- Tokenize an input expression (`tokenize` in the source). -/
def tokenize (expr : String) : List Token :=
  tokenizeGo [] (splitWhitespace expr)

/-- One step of the flag-tracking loop of `is_valid_subexpression`: the
first flag records that an operator was seen, the second that a number was
seen. -/
def validStep (fl : Bool × Bool) (t : Token) : Bool × Bool :=
  match t with
  | Token.Number _ => (fl.1, true)
  | Token.Plus => (true, fl.2)
  | Token.Mul => (true, fl.2)

/-- The inclusive slice `tokens[start..=end]` of a token sequence. -/
def sliceIncl (tokens : List Token) (start e : Nat) : List Token :=
  (tokens.drop start).take (e + 1 - start)

/-- Check that the inclusive slice `[start, end]` contains at least one
operator and at least one number (`is_valid_subexpression` in the source). -/
def is_valid_subexpression (tokens : List Token) (start e : Nat) : Bool :=
  let flags := (sliceIncl tokens start e).foldl validStep (false, false)
  flags.1 && flags.2

/-- Evaluate the slice `[start, end]` on its own, substitute the resulting
value as a single `Number` token for that portion of the sequence, and
evaluate the substituted sequence (`evaluate_with_parentheses` in the
source). -/
def evaluate_with_parentheses (tokens : List Token) (start e : Nat) : Option Int :=
  match evaluate_expression (sliceIncl tokens start e) with
  | none => none
  | some sub_value =>
    evaluate_expression
      (tokens.take start ++ [Token.Number sub_value] ++ tokens.drop (e + 1))

/-- Render a token as its literal string. -/
def tokenString (t : Token) : String :=
  match t with
  | Token.Number n => toString n
  | Token.Plus => plusStr
  | Token.Mul => mulStr

/-- One step of the rendering loop of `insert_parentheses`: push `(` before
the piece at index `start`, a separating space unless the accumulator is
empty or ends with `(`, then the piece, then `)` after the piece at index
`end`. -/
def insertStep (start e : Nat) (with_paren : String) (ip : Nat × String) : String :=
  let w1 := if ip.1 = start then with_paren.push '(' else with_paren
  let w2 := if !w1.isEmpty && !(w1.back == '(') then w1.push ' ' else w1
  let w3 := w2 ++ ip.2
  if ip.1 = e then w3.push ')' else w3

/-- Reconstruct the rendered expression with one parenthesis pair around the
token range `[start, end]` (`insert_parentheses` in the source). -/
def insert_parentheses (tokens : List Token) (start e : Nat) : String :=
  let pieces := tokens.map tokenString
  pieces.enum.foldl (insertStep start e) ""

/-- The candidate index pairs enumerated by the two loops in `main`:
`start` ranges over `0..len` and `end` over `start+1..len`. -/
def candidatePairs (tokens : List Token) : List (Nat × Nat) :=
  (List.range tokens.length).flatMap fun s =>
    (List.range' (s + 1) (tokens.length - (s + 1))).map fun e => (s, e)

/-- The candidate ranges that pass the validity filter and whose
parenthesized evaluation hits the target: exactly the ranges for which
`main` pushes a rendered result. -/
def matchingRanges (tokens : List Token) (target : Int) : List (Nat × Nat) :=
  (candidatePairs tokens).filter fun p =>
    is_valid_subexpression tokens p.1 p.2 &&
      (evaluate_with_parentheses tokens p.1 p.2 == some target)

/-- The rendered result strings collected by `main`, in enumeration order,
before sorting and deduplication. -/
def searchResults (tokens : List Token) (target : Int) : List String :=
  (matchingRanges tokens target).map fun p => insert_parentheses tokens p.1 p.2

/-- Lexicographic string sort, modelling `Vec::sort`. -/
def sortStrings (l : List String) : List String :=
  List.insertionSort (fun a b => a ≤ b) l

/-- Remove consecutive duplicates, modelling `Vec::dedup`. -/
def dedupConsec {α : Type} [DecidableEq α] : List α → List α
  | [] => []
  | [a] => [a]
  | a :: b :: rest =>
    if a = b then dedupConsec (b :: rest) else a :: dedupConsec (b :: rest)

/-- The final sorted, deduplicated result list of `main`. -/
def finalResults (tokens : List Token) (target : Int) : List String :=
  dedupConsec (sortStrings (searchResults tokens target))

/-- The line `main` prints when no placement hits the target. -/
def notFoundLine (target : Int) : String :=
  "No single-pair parenthetical placement found that results in " ++ toString target ++ "."

/-- The header line `main` prints when at least one placement hits the target. -/
def foundLine (target : Int) : String :=
  "Found the following ways to achieve " ++ toString target ++ ":"

/-- The lines printed by `main` for a given token sequence and target. -/
def outputLines (tokens : List Token) (target : Int) : List String :=
  if (finalResults tokens target).isEmpty then [notFoundLine target]
  else foundLine target :: finalResults tokens target

/-- The hard-coded expression of `main`. -/
def expression : String := "1 + 2 * 3 + 4 * 5 + 6 * 7 + 8 * 9"

/-- The hard-coded target value of `main`. -/
def target_value : Int := 479

/-- Test whether a token is an operator. -/
def isOpTok : Token → Bool
  | Token.Plus => true
  | Token.Mul => true
  | Token.Number _ => false

/-- Test whether a token is a number. -/
def isNumTok : Token → Bool
  | Token.Number _ => true
  | _ => false

/-- Shape of the tail of a well-formed expression after its leading number:
a possibly empty alternation of operator and number. -/
def wfTail : List Token → Bool
  | [] => true
  | Token.Plus :: Token.Number _ :: rest => wfTail rest
  | Token.Mul :: Token.Number _ :: rest => wfTail rest
  | _ => false

/-- Shape `number (op number)*` of a well-formed flat expression, the token
sequences the tokenizer produces from well-formed input strings. -/
def wellFormed : List Token → Bool
  | Token.Number _ :: rest => wfTail rest
  | _ => false

/-- Split a token sequence into the maximal runs separated by `Plus`
tokens. Written from the specification: terms are separated by pluses. -/
def splitOnPlus : List Token → List (List Token)
  | [] => [[]]
  | Token.Plus :: rest => [] :: splitOnPlus rest
  | t :: rest =>
    match splitOnPlus rest with
    | [] => [[t]]
    | g :: gs => (t :: g) :: gs

/-- The number values occurring in a token run. -/
def numsOf (g : List Token) : List Int :=
  g.filterMap fun t =>
    match t with
    | Token.Number n => some n
    | _ => none

/-- The left-associated product of the numbers of a run. -/
def groupProd (g : List Token) : Int :=
  (numsOf g).foldl (fun a b => a * b) 1

/-- Standard arithmetic value of a flat expression, written from the
specification: split into terms at each `Plus`, multiply the numbers inside
each term left to right, and sum the terms left to right, so that `*` binds
tighter than `+` and both are left-associative. Exact integer arithmetic. -/
def standardValue (tokens : List Token) : Int :=
  ((splitOnPlus tokens).map groupProd).foldl (fun a b => a + b) 0

/-- Per-piece classification of the tokenizer, written from the
specification: a piece parsing as a signed 64-bit integer becomes `Number`,
the piece `+` becomes `Plus`, the piece `*` becomes `Mul`, and any other
piece contributes no token. -/
def tokenOfPiece (p : String) : Option Token :=
  match i64_from_str p with
  | some n => some (Token.Number n)
  | none =>
    if p = plusStr then some Token.Plus
    else if p = mulStr then some Token.Mul
    else none

/-- The term values a well-formed tail produces when the term in progress
has exact value `p`: multiplications extend the current term, pluses close
it. Exact integer arithmetic. -/
def tailTerms (p : Int) : List Token → List Int
  | Token.Mul :: Token.Number m :: rest => tailTerms (p * m) rest
  | Token.Plus :: Token.Number n :: rest => p :: tailTerms n rest
  | _ => [p]

/-- Check that every product formed while walking a well-formed tail from
the exact in-progress value `p` fits in the signed 64-bit range. -/
def tailProdsOk (p : Int) : List Token → Bool
  | Token.Mul :: Token.Number m :: rest => fitsI64 (p * m) && tailProdsOk (p * m) rest
  | Token.Plus :: Token.Number n :: rest => tailProdsOk n rest
  | _ => true

/-- Check that every partial sum of the left fold of addition starting at
`a` fits in the signed 64-bit range. -/
def sumFoldOk : Int → List Int → Bool
  | _, [] => true
  | a, t :: ts => fitsI64 (a + t) && sumFoldOk (a + t) ts

/-- Check that no intermediate product or partial sum of the evaluation of a
well-formed expression leaves the signed 64-bit range. -/
def noOverflow : List Token → Bool
  | Token.Number n :: rest => tailProdsOk n rest && sumFoldOk 0 (tailTerms n rest)
  | _ => false

/-- Fused evaluator state: the expectation together with the product in
progress, representable only when the expectation is for an operator. -/
inductive EvalState where
  | expectNum : EvalState
  | haveProd : Int → EvalState
deriving DecidableEq, Repr

/-- The evaluator walk restated on the fused state, in which the branches of
`evaluate_expression` guarded by a mismatch between the expectation and the
presence of a product in progress have no representable input and are gone. -/
def evalLoopInv : List Token → EvalState → List Int → Option (List Int)
  | [], EvalState.expectNum, _ => none
  | [], EvalState.haveProd p, terms => some (terms ++ [p])
  | Token.Number n :: rest, EvalState.expectNum, terms =>
    evalLoopInv rest (EvalState.haveProd n) terms
  | Token.Plus :: rest, EvalState.haveProd p, terms =>
    evalLoopInv rest EvalState.expectNum (terms ++ [p])
  | Token.Mul :: Token.Number m :: rest, EvalState.haveProd p, terms =>
    evalLoopInv rest (EvalState.haveProd (wmul p m)) terms
  | Token.Mul :: _, EvalState.haveProd _, _ => none
  | Token.Plus :: _, EvalState.expectNum, _ => none
  | Token.Mul :: _, EvalState.expectNum, _ => none
  | Token.Number _ :: _, EvalState.haveProd _, _ => none

/-- Evaluation through the fused walk. -/
def evaluate_expression_invariant (tokens : List Token) : Option Int :=
  if tokens.isEmpty then none
  else
    match evalLoopInv tokens EvalState.expectNum [] with
    | some terms => some (terms.foldl wadd 0)
    | none => none

/-- String with a lone plus. -/
def strPlusOnly : String := "+"

/-- String with a trailing operator. -/
def strTrailing : String := "1 +"

/-- String with two adjacent numbers. -/
def strAdjacent : String := "1 2"

/-- String with a leading operator. -/
def strLeadingMul : String := "* 3"

/-- String with a multiplication followed by an operator. -/
def strMulPlus : String := "1 * +"

/-- The rendering the specification expects for range `(1, 3)` over the
tokens of `1 + 2 * 3`. -/
def claimedRendering : String := "1 (+ 2 *) 3"

/-- The rendering the code produces for range `(1, 3)` over the tokens of
`1 + 2 * 3`. -/
def actualRendering : String := "1(+ 2 *) 3"

/-- The term values of the remaining input as read from the spec-side term
split: the first run continues the term in progress, whose product so far is
`p`, and each later run is an independent term. -/
def specTermsFrom (p : Int) (rest : List Token) : List Int :=
  match splitOnPlus rest with
  | [] => [p]
  | g :: gs => (numsOf g).foldl (fun a b => a * b) p :: gs.map groupProd

/-- A well-formed input string whose product overflows the `i64` range:
its numeric value is `2 ^ 62`, and `2 ^ 62 * 4 = 2 ^ 64` wraps to `0`. -/
def overflowStr : String := "4611686018427387904 * 4"

/-- The example string of claim C1. -/
def exampleStr : String := "2 + 3 * 4"

/-- Claim C4: `evaluate_expression` returns `none` on the empty token
sequence and on the tokenizations of each malformed test string; the
codomain is `Option Int`, so malformation is signalled only as the absence
of a value, with no distinguishable error code. -/
theorem c4_evaluator_rejects_malformed :
    evaluate_expression [] = none ∧
    evaluate_expression (tokenize strPlusOnly) = none ∧
    evaluate_expression (tokenize strTrailing) = none ∧
    evaluate_expression (tokenize strAdjacent) = none ∧
    evaluate_expression (tokenize strLeadingMul) = none ∧
    evaluate_expression (tokenize strMulPlus) = none := by
  decide

/-- Counterexample to claim C3: on the tokens of `1 + 2 * 3` and range
`(1, 3)`, `insert_parentheses` does not return `"1 (+ 2 *) 3"`; the
opening parenthesis is pushed before the separating space is considered,
and the space is then suppressed because the accumulator ends with `(`. -/
theorem c3_rendering_counterexample :
    (insert_parentheses
        [Token.Number 1, Token.Plus, Token.Number 2, Token.Mul, Token.Number 3] 1 3
      == claimedRendering) = false := by
  decide

/-- Claim C3 as amended: on the tokens of `1 + 2 * 3` and range `(1, 3)`,
`insert_parentheses` returns exactly `"1(+ 2 *) 3"`: every token rendered as
its literal, tokens separated by single spaces, `(` immediately preceding
the token at `start` with no space after `(` and also no space before `(`,
and `)` immediately following the token at `end` with no space before `)`. -/
theorem c3_rendering_amended :
    insert_parentheses
        [Token.Number 1, Token.Plus, Token.Number 2, Token.Mul, Token.Number 3] 1 3
      = actualRendering := by
  decide

/-- Claim C2: for the hard-coded expression and target 479, the
unparenthesized tokenization evaluates to 141, the enumeration collects at
least one result string, and the range `(4, 10)` passes the validity filter
with parenthesized value 479. -/
theorem c2_fixed_expression_search :
    evaluate_expression (tokenize expression) = some 141 ∧
    0 < (searchResults (tokenize expression) target_value).length ∧
    ∃ s e, is_valid_subexpression (tokenize expression) s e = true ∧
      evaluate_with_parentheses (tokenize expression) s e = some target_value := by
  refine ⟨by decide, by decide, 4, 10, by decide, by decide⟩

theorem tokenizeGo_filterMap :
    ∀ (l : List String) (acc : List Token),
      tokenizeGo acc l = acc ++ l.filterMap tokenOfPiece := by
  intro l
  induction l with
  | nil => intro acc; simp [tokenizeGo]
  | cons part rest ih =>
    intro acc
    cases h : i64_from_str part with
    | some num => simp [tokenizeGo, tokenOfPiece, h, ih]
    | none =>
      by_cases hp : part = plusStr
      · subst hp
        simp [tokenizeGo, tokenOfPiece, h, ih]
      · by_cases hm : part = mulStr
        · subst hm
          simp [tokenizeGo, tokenOfPiece, h, hp, ih]
        · simp [tokenizeGo, tokenOfPiece, h, hp, hm, ih]

/-- Claim C7: for every input string, `tokenize` maps each
whitespace-delimited piece independently through the per-piece
classification: a piece parsing as a signed 64-bit integer becomes `Number`
of that value, the piece `+` becomes `Plus`, the piece `*` becomes `Mul`,
and any other piece contributes no token; `tokenize` is a total function,
so it never fails, and `List.filterMap` preserves the input order of the
recognized pieces. -/
theorem c7_tokenize_per_piece (s : String) :
    tokenize s = (splitWhitespace s).filterMap tokenOfPiece := by
  simpa using tokenizeGo_filterMap (splitWhitespace s) []

/-- Claim C5: for every token sequence and in-bounds range with
`start ≤ end`, `evaluate_with_parentheses` returns `none` when the slice
`[start, end]` does not evaluate, and otherwise equals
`evaluate_expression` applied to the tokens before `start`, a single
`Number` holding the evaluated slice value, and the tokens after `end`. -/
theorem c5_substitution_spec (tokens : List Token) (start e : Nat)
    (_hse : start ≤ e) (_he : e < tokens.length) :
    (evaluate_expression (sliceIncl tokens start e) = none →
      evaluate_with_parentheses tokens start e = none) ∧
    ∀ v, evaluate_expression (sliceIncl tokens start e) = some v →
      evaluate_with_parentheses tokens start e =
        evaluate_expression
          (tokens.take start ++ [Token.Number v] ++ tokens.drop (e + 1)) := by
  constructor
  · intro h
    simp [evaluate_with_parentheses, h]
  · intro v h
    simp [evaluate_with_parentheses, h]

/-- Witness for claim C5 at the tokens of `1 + 2` and range `(0, 2)`, whose
slice evaluates to `3`. -/
theorem c5_substitution_spec_witness :
    evaluate_with_parentheses [Token.Number 1, Token.Plus, Token.Number 2] 0 2 =
      evaluate_expression
        (List.take 0 [Token.Number 1, Token.Plus, Token.Number 2] ++
          [Token.Number 3] ++
          List.drop 3 [Token.Number 1, Token.Plus, Token.Number 2]) :=
  (c5_substitution_spec [Token.Number 1, Token.Plus, Token.Number 2] 0 2
    (by decide) (by decide)).2 3 (by decide)

theorem mem_candidatePairs {tokens : List Token} {s e : Nat}
    (h : (s, e) ∈ candidatePairs tokens) : s < e ∧ e < tokens.length := by
  unfold candidatePairs at h
  simp only [List.mem_flatMap, List.mem_map, List.mem_range, List.mem_range'_1] at h
  obtain ⟨s1, hs1, e1, he1, heq⟩ := h
  have h1 : s1 = s := congrArg Prod.fst heq
  have h2 : e1 = e := congrArg Prod.snd heq
  subst h1
  subst h2
  omega

theorem foldl_validStep (l : List Token) :
    ∀ fl : Bool × Bool,
      l.foldl validStep fl = (fl.1 || l.any isOpTok, fl.2 || l.any isNumTok) := by
  induction l with
  | nil => intro fl; simp
  | cons t rest ih =>
    intro fl
    cases t <;>
      simp [validStep, ih, isOpTok, isNumTok, Bool.or_assoc]

theorem is_valid_iff (tokens : List Token) (s e : Nat) :
    is_valid_subexpression tokens s e =
      ((sliceIncl tokens s e).any isOpTok && (sliceIncl tokens s e).any isNumTok) := by
  simp [is_valid_subexpression, foldl_validStep]

/-- Claim C6: every candidate range for which the enumerator emits a result
satisfies `start < end` and `end < length`, and the inclusive slice
`[start, end]` contains at least one `Number` token and at least one
operator token; contrapositively, every range violating any of these
conditions is excluded from producing a result. -/
theorem c6_emitted_ranges_valid (tokens : List Token) (target : Int) (s e : Nat)
    (h : (s, e) ∈ matchingRanges tokens target) :
    s < e ∧ e < tokens.length ∧
      (sliceIncl tokens s e).any isNumTok = true ∧
      (sliceIncl tokens s e).any isOpTok = true := by
  unfold matchingRanges at h
  rw [List.mem_filter] at h
  obtain ⟨hmem, hcond⟩ := h
  have hb := mem_candidatePairs hmem
  simp only [Bool.and_eq_true] at hcond
  have hv := hcond.1
  rw [is_valid_iff] at hv
  simp only [Bool.and_eq_true] at hv
  exact ⟨hb.1, hb.2, hv.2, hv.1⟩

/-- Witness for claim C6 at the tokens of `1 + 2`, target `3`, and the
emitted range `(0, 2)`. -/
theorem c6_emitted_ranges_valid_witness :
    0 < 2 ∧ 2 < ([Token.Number 1, Token.Plus, Token.Number 2] : List Token).length ∧
      (sliceIncl [Token.Number 1, Token.Plus, Token.Number 2] 0 2).any isNumTok = true ∧
      (sliceIncl [Token.Number 1, Token.Plus, Token.Number 2] 0 2).any isOpTok = true :=
  c6_emitted_ranges_valid [Token.Number 1, Token.Plus, Token.Number 2] 3 0 2 (by decide)

theorem evalLoop_eq_evalLoopInv :
    ∀ (tokens : List Token) (terms : List Int),
      (evalLoop tokens Expectation.number none terms =
        evalLoopInv tokens EvalState.expectNum terms) ∧
      ∀ p, evalLoop tokens Expectation.operator (some p) terms =
        evalLoopInv tokens (EvalState.haveProd p) terms
  | [], _terms => ⟨rfl, fun _ => rfl⟩
  | Token.Number n :: rest, terms =>
    ⟨(evalLoop_eq_evalLoopInv rest terms).2 n, fun _ => rfl⟩
  | Token.Plus :: rest, terms =>
    ⟨rfl, fun p => (evalLoop_eq_evalLoopInv rest (terms ++ [p])).1⟩
  | Token.Mul :: Token.Number m :: rest2, terms =>
    ⟨rfl, fun p => (evalLoop_eq_evalLoopInv rest2 terms).2 (wmul p m)⟩
  | Token.Mul :: [], _terms => ⟨rfl, fun _ => rfl⟩
  | Token.Mul :: Token.Plus :: _, _ => ⟨rfl, fun _ => rfl⟩
  | Token.Mul :: Token.Mul :: _, _ => ⟨rfl, fun _ => rfl⟩

/-- Claim C10: at every iteration of the token walk the expectation is
`Operator` exactly when a product is in progress, so `evaluate_expression`
coincides with the walk over the fused state type in which the branches
guarded by `two numbers in a row with a product already in progress`,
`Plus with no current product`, `Mul with no current product`, and `no
product at the end after a successful walk` have no representable input:
every `none` comes from one of the other malformation checks. -/
theorem c10_expectation_invariant (tokens : List Token) :
    evaluate_expression tokens = evaluate_expression_invariant tokens := by
  unfold evaluate_expression evaluate_expression_invariant
  rw [(evalLoop_eq_evalLoopInv tokens []).1]

theorem i64Wrap_fits {x : Int} (h : fitsI64 x = true) : i64Wrap x = x := by
  have h1 : -(2 ^ 63) ≤ x ∧ x < 2 ^ 63 := by simpa [fitsI64] using h
  have e63 : (2 : Int) ^ 63 = 9223372036854775808 := by norm_num
  have e64 : (2 : Int) ^ 64 = 18446744073709551616 := by norm_num
  unfold i64Wrap
  rw [e63, e64]
  rw [e63] at h1
  rw [Int.emod_eq_of_lt (by omega) (by omega)]
  omega

theorem evalLoop_wfTail :
    ∀ (rest : List Token) (p : Int) (terms : List Int),
      wfTail rest = true → tailProdsOk p rest = true →
      evalLoop rest Expectation.operator (some p) terms =
        some (terms ++ tailTerms p rest)
  | [], _, _, _, _ => rfl
  | Token.Mul :: Token.Number m :: r, p, terms, hwf, hok => by
    have h1 : wfTail r = true := by simpa [wfTail] using hwf
    have h2 : fitsI64 (p * m) = true ∧ tailProdsOk (p * m) r = true := by
      simpa [tailProdsOk, Bool.and_eq_true] using hok
    show evalLoop r Expectation.operator (some (wmul p m)) terms =
      some (terms ++ tailTerms p (Token.Mul :: Token.Number m :: r))
    have hw : wmul p m = p * m := i64Wrap_fits h2.1
    rw [hw, evalLoop_wfTail r (p * m) terms h1 h2.2]
    simp [tailTerms]
  | Token.Plus :: Token.Number v :: r, p, terms, hwf, hok => by
    have h1 : wfTail r = true := by simpa [wfTail] using hwf
    have h2 : tailProdsOk v r = true := by simpa [tailProdsOk] using hok
    show evalLoop r Expectation.operator (some v) (terms ++ [p]) =
      some (terms ++ tailTerms p (Token.Plus :: Token.Number v :: r))
    rw [evalLoop_wfTail r v (terms ++ [p]) h1 h2]
    simp [tailTerms]
  | Token.Number _ :: _, _, _, hwf, _ => by simp [wfTail] at hwf
  | [Token.Plus], _, _, hwf, _ => by simp [wfTail] at hwf
  | [Token.Mul], _, _, hwf, _ => by simp [wfTail] at hwf
  | Token.Plus :: Token.Plus :: _, _, _, hwf, _ => by simp [wfTail] at hwf
  | Token.Plus :: Token.Mul :: _, _, _, hwf, _ => by simp [wfTail] at hwf
  | Token.Mul :: Token.Plus :: _, _, _, hwf, _ => by simp [wfTail] at hwf
  | Token.Mul :: Token.Mul :: _, _, _, hwf, _ => by simp [wfTail] at hwf

theorem foldl_wadd_eq :
    ∀ (ts : List Int) (a : Int), sumFoldOk a ts = true →
      ts.foldl wadd a = ts.foldl (fun x y => x + y) a
  | [], _, _ => rfl
  | t :: ts, a, h => by
    have h2 : fitsI64 (a + t) = true ∧ sumFoldOk (a + t) ts = true := by
      simpa [sumFoldOk, Bool.and_eq_true] using h
    show ts.foldl wadd (wadd a t) = ts.foldl (fun x y => x + y) (a + t)
    have hw : wadd a t = a + t := i64Wrap_fits h2.1
    rw [hw]
    exact foldl_wadd_eq ts (a + t) h2.2

theorem splitOnPlus_ne_nil : ∀ l : List Token, splitOnPlus l ≠ [] := by
  intro l
  match l with
  | [] => simp [splitOnPlus]
  | Token.Plus :: rest => simp [splitOnPlus]
  | Token.Number n :: rest =>
    simp only [splitOnPlus]
    cases splitOnPlus rest <;> simp
  | Token.Mul :: rest =>
    simp only [splitOnPlus]
    cases splitOnPlus rest <;> simp

theorem tailTerms_eq_specTermsFrom :
    ∀ (rest : List Token) (p : Int), wfTail rest = true →
      tailTerms p rest = specTermsFrom p rest
  | [], p, _ => by simp [tailTerms, specTermsFrom, splitOnPlus, numsOf]
  | Token.Mul :: Token.Number m :: r, p, hwf => by
    have h1 : wfTail r = true := by simpa [wfTail] using hwf
    obtain ⟨g, gs, hr⟩ := List.exists_cons_of_ne_nil (splitOnPlus_ne_nil r)
    have ih := tailTerms_eq_specTermsFrom r (p * m) h1
    show tailTerms (p * m) r = specTermsFrom p (Token.Mul :: Token.Number m :: r)
    rw [ih]
    unfold specTermsFrom
    simp only [splitOnPlus, hr]
    simp [numsOf, groupProd]
  | Token.Plus :: Token.Number v :: r, p, hwf => by
    have h1 : wfTail r = true := by simpa [wfTail] using hwf
    obtain ⟨g, gs, hr⟩ := List.exists_cons_of_ne_nil (splitOnPlus_ne_nil r)
    have ih := tailTerms_eq_specTermsFrom r v h1
    show p :: tailTerms v r = specTermsFrom p (Token.Plus :: Token.Number v :: r)
    rw [ih]
    unfold specTermsFrom
    simp only [splitOnPlus, hr]
    simp [numsOf, groupProd]
  | Token.Number _ :: _, _, hwf => by simp [wfTail] at hwf
  | [Token.Plus], _, hwf => by simp [wfTail] at hwf
  | [Token.Mul], _, hwf => by simp [wfTail] at hwf
  | Token.Plus :: Token.Plus :: _, _, hwf => by simp [wfTail] at hwf
  | Token.Plus :: Token.Mul :: _, _, hwf => by simp [wfTail] at hwf
  | Token.Mul :: Token.Plus :: _, _, hwf => by simp [wfTail] at hwf
  | Token.Mul :: Token.Mul :: _, _, hwf => by simp [wfTail] at hwf

theorem standardValue_wf (n : Int) (rest : List Token) (h : wfTail rest = true) :
    standardValue (Token.Number n :: rest) =
      (tailTerms n rest).foldl (fun a b => a + b) 0 := by
  obtain ⟨g, gs, hr⟩ := List.exists_cons_of_ne_nil (splitOnPlus_ne_nil rest)
  rw [tailTerms_eq_specTermsFrom rest n h]
  unfold standardValue specTermsFrom
  simp only [splitOnPlus, hr]
  simp [numsOf, groupProd]

/-- Claim C1 as amended: for every token sequence of the well-formed shape
`number (op number)*` over `+` and `*` (the sequences the tokenizer
produces from well-formed strings), provided every intermediate product and
partial sum of the evaluation stays inside the signed 64-bit range,
`evaluate_expression` returns `some` of the value obtained by standard
arithmetic with `*` binding tighter than `+`, both left-associative; in
particular the sequence for `2 + 3 * 4` evaluates to `14`, not `20`. -/
theorem c1_precedence_amended (tokens : List Token)
    (hwf : wellFormed tokens = true) (hof : noOverflow tokens = true) :
    evaluate_expression tokens = some (standardValue tokens) := by
  match tokens, hwf, hof with
  | Token.Number n :: rest, hwf, hof =>
    have h1 : wfTail rest = true := by simpa [wellFormed] using hwf
    have h2 : tailProdsOk n rest = true ∧ sumFoldOk 0 (tailTerms n rest) = true := by
      simpa [noOverflow, Bool.and_eq_true] using hof
    have hloop : evalLoop (Token.Number n :: rest) Expectation.number none [] =
        some (tailTerms n rest) := by
      show evalLoop rest Expectation.operator (some n) [] = some (tailTerms n rest)
      simpa using evalLoop_wfTail rest n [] h1 h2.1
    simp only [evaluate_expression, List.isEmpty_cons, Bool.false_eq_true,
      if_false, hloop]
    rw [foldl_wadd_eq (tailTerms n rest) 0 h2.2, standardValue_wf n rest h1]
  | [], hwf, _ => simp [wellFormed] at hwf
  | Token.Plus :: _, hwf, _ => simp [wellFormed] at hwf
  | Token.Mul :: _, hwf, _ => simp [wellFormed] at hwf

/-- Counterexample to claim C1 as stated: the tokenization of the
well-formed string `4611686018427387904 * 4` has standard arithmetic value
`2 ^ 64 = 18446744073709551616`, which cannot be an `i64`; the code
computes with wrapping 64-bit multiplication and returns `some 0`, so the
evaluator does not return the standard arithmetic value on every
well-formed tokenizer output. -/
theorem c1_precedence_counterexample :
    wellFormed (tokenize overflowStr) = true ∧
    evaluate_expression (tokenize overflowStr) = some 0 ∧
    standardValue (tokenize overflowStr) = 18446744073709551616 ∧
    (evaluate_expression (tokenize overflowStr)
      == some (standardValue (tokenize overflowStr))) = false := by
  refine ⟨by decide, by decide, by decide, by decide⟩

/-- Witness for the amended claim C1 at the tokens of `2 + 3 * 4`: the
shape and no-overflow hypotheses hold there, and the standard value the
evaluator returns is `14`, not `20`. -/
theorem c1_precedence_amended_witness :
    evaluate_expression (tokenize exampleStr) =
      some (standardValue (tokenize exampleStr)) ∧
    standardValue (tokenize exampleStr) = 14 :=
  ⟨c1_precedence_amended (tokenize exampleStr) (by decide) (by decide), by decide⟩

theorem mem_of_mem_dedupConsec {α : Type} [DecidableEq α] :
    ∀ (l : List α) (x : α), x ∈ dedupConsec l → x ∈ l
  | [], _, hx => by simp [dedupConsec] at hx
  | [a], x, hx => by simpa [dedupConsec] using hx
  | a :: b :: rest, x, hx => by
    by_cases hab : a = b
    · have hx2 : x ∈ dedupConsec (b :: rest) := by
        simpa [dedupConsec, hab] using hx
      have := mem_of_mem_dedupConsec (b :: rest) x hx2
      simp [List.mem_cons] at this ⊢
      tauto
    · have hx2 : x = a ∨ x ∈ dedupConsec (b :: rest) := by
        simpa [dedupConsec, hab] using hx
      cases hx2 with
      | inl h => simp [h]
      | inr h =>
        have := mem_of_mem_dedupConsec (b :: rest) x h
        simp [List.mem_cons] at this ⊢
        tauto

theorem sorted_dedupConsec {α : Type} [DecidableEq α] [LinearOrder α] :
    ∀ l : List α, l.Sorted (fun a b => a ≤ b) →
      (dedupConsec l).Sorted (fun a b => a ≤ b)
  | [], _ => by simp [dedupConsec]
  | [a], _ => by simp [dedupConsec]
  | a :: b :: rest, hs => by
    have hs2 : (b :: rest).Sorted (fun a b => a ≤ b) := hs.of_cons
    have hle : ∀ x ∈ b :: rest, a ≤ x := (List.sorted_cons.mp hs).1
    by_cases hab : a = b
    · simpa [dedupConsec, hab] using sorted_dedupConsec (b :: rest) hs2
    · have ih := sorted_dedupConsec (b :: rest) hs2
      have : (a :: dedupConsec (b :: rest)).Sorted (fun a b => a ≤ b) := by
        rw [List.sorted_cons]
        exact ⟨fun x hx => hle x (mem_of_mem_dedupConsec (b :: rest) x hx), ih⟩
      simpa [dedupConsec, hab] using this

theorem nodup_dedupConsec {α : Type} [DecidableEq α] [LinearOrder α] :
    ∀ l : List α, l.Sorted (fun a b => a ≤ b) → (dedupConsec l).Nodup
  | [], _ => by simp [dedupConsec]
  | [a], _ => by simp [dedupConsec]
  | a :: b :: rest, hs => by
    have hs2 : (b :: rest).Sorted (fun a b => a ≤ b) := hs.of_cons
    have hle : ∀ x ∈ b :: rest, a ≤ x := (List.sorted_cons.mp hs).1
    by_cases hab : a = b
    · simpa [dedupConsec, hab] using nodup_dedupConsec (b :: rest) hs2
    · have ih := nodup_dedupConsec (b :: rest) hs2
      have hblex : ∀ x ∈ b :: rest, b ≤ x := by
        intro x hx
        rcases List.mem_cons.mp hx with h | h
        · exact le_of_eq h.symm
        · exact ((List.sorted_cons.mp hs2).1) x h
      have hnotmem : a ∉ dedupConsec (b :: rest) := by
        intro hmem
        have hxin := mem_of_mem_dedupConsec (b :: rest) a hmem
        have hba : b ≤ a := hblex a hxin
        have hab2 : a ≤ b := hle b (by simp)
        exact hab (le_antisymm hab2 hba)
      have : (a :: dedupConsec (b :: rest)).Nodup := by
        rw [List.nodup_cons]
        exact ⟨hnotmem, ih⟩
      simpa [dedupConsec, hab] using this

theorem sorted_sortStrings (l : List String) :
    (sortStrings l).Sorted (fun a b => a ≤ b) :=
  List.sorted_insertionSort (fun a b => a ≤ b) l

/-- Claim C8: for every token sequence and target, the output of the
program is exactly one of two shapes: the single not-found line when the
result set is empty, or the found header followed by one line per match,
the match lines sorted lexicographically and containing no duplicates. -/
theorem c8_output_shape (tokens : List Token) (target : Int) :
    outputLines tokens target = [notFoundLine target] ∨
    ∃ rest : List String,
      outputLines tokens target = foundLine target :: rest ∧
      rest.Sorted (fun a b => a ≤ b) ∧ rest.Nodup := by
  unfold outputLines
  by_cases h : (finalResults tokens target).isEmpty
  · left
    simp [h]
  · right
    refine ⟨finalResults tokens target, by simp [h], ?_, ?_⟩
    · show (finalResults tokens target).Sorted (fun a b => a ≤ b)
      unfold finalResults
      exact sorted_dedupConsec _ (sorted_sortStrings _)
    · show (finalResults tokens target).Nodup
      unfold finalResults
      exact nodup_dedupConsec _ (sorted_sortStrings _)

/-- Claim C9: the embedding of the program is built from total functions,
so the token walk of `evaluate_expression` terminates on every finite token
sequence (each step consumes one or two tokens) and the enumeration in
`main` is a bounded fold over the candidate ranges; the program always ends
by printing at least one output line, with no fatal error in normal
operation. -/
theorem c9_terminates_with_output (tokens : List Token) (target : Int) :
    0 < (outputLines tokens target).length := by
  unfold outputLines
  by_cases h : (finalResults tokens target).isEmpty <;> simp [h]
